/-
  Verification of the trading backtest engine (`exchange/engine.py`).

  Shallow embedding: the `MultiBroker` class becomes an explicit state
  structure, its mutating methods become state-passing functions, Python
  floats become exact rationals (ℚ), `None`-able prices become `Option ℚ`,
  and the event loop `run_multi_backtest` becomes a fold over tick groups.
-/
import Mathlib

set_option maxHeartbeats 1000000

namespace Trading

/-- The three currencies of the engine: `fiat`, `token_1`, `token_2`. -/
inductive Asset : Type
  | fiat
  | token1
  | token2
deriving DecidableEq, Fintype

/-- The three supported trading pairs:
`token_1/fiat`, `token_2/fiat`, `token_1/token_2`. -/
inductive Pair : Type
  | t1f
  | t2f
  | t12
deriving DecidableEq, Fintype

/-- `base, quote = pair.split("/")`: the base asset of each pair. -/
def Pair.base : Pair → Asset
  | .t1f => .token1
  | .t2f => .token2
  | .t12 => .token1

/-- `base, quote = pair.split("/")`: the quote asset of each pair. -/
def Pair.quote : Pair → Asset
  | .t1f => .fiat
  | .t2f => .fiat
  | .t12 => .token2

/-- Order side: `"buy"` or `"sell"`. -/
inductive Side : Type
  | buy
  | sell
deriving DecidableEq, Fintype

/-- An order `{pair, side, qty}` as produced by a strategy. -/
structure Order : Type where
  pair : Pair
  side : Side
  qty : ℚ
deriving DecidableEq

/-- The `self.balances` dict: one rational amount per asset. -/
structure Balances : Type where
  fiat : ℚ
  token1 : ℚ
  token2 : ℚ
deriving DecidableEq

/-- `balances[asset]` read access. -/
def Balances.get (b : Balances) : Asset → ℚ
  | .fiat => b.fiat
  | .token1 => b.token1
  | .token2 => b.token2

/-- `balances[asset] = v` write access. -/
def Balances.set (b : Balances) : Asset → ℚ → Balances
  | .fiat, v => { b with fiat := v }
  | .token1, v => { b with token1 := v }
  | .token2, v => { b with token2 := v }

/-- `balances[asset] += v`. -/
def Balances.add (b : Balances) (a : Asset) (v : ℚ) : Balances :=
  b.set a (b.get a + v)

/-- `balances[asset] -= v`. -/
def Balances.sub (b : Balances) (a : Asset) (v : ℚ) : Balances :=
  b.set a (b.get a - v)

/-- The `MultiBroker` state: balances, latest price per pair (`None` until
the first tick), first-seen prices and their write-once flags, the equity
history list, and the turnover / trade-count / fees counters. -/
structure MultiBroker : Type where
  balances : Balances
  p1f : Option ℚ
  p2f : Option ℚ
  p12 : Option ℚ
  fp1f : Option ℚ
  fp2f : Option ℚ
  fp12 : Option ℚ
  fu1f : Bool
  fu2f : Bool
  fu12 : Bool
  equity_history : List ℚ
  turnover : ℚ
  trade_count : ℕ
  total_fees_paid : ℚ
  fee : ℚ
deriving DecidableEq

/-- `self.prices[pair]`. -/
def MultiBroker.price (b : MultiBroker) : Pair → Option ℚ
  | .t1f => b.p1f
  | .t2f => b.p2f
  | .t12 => b.p12

/-- `self.prices[pair] = close`. -/
def MultiBroker.setPrice (b : MultiBroker) : Pair → ℚ → MultiBroker
  | .t1f, v => { b with p1f := some v }
  | .t2f, v => { b with p2f := some v }
  | .t12, v => { b with p12 := some v }

/-- The write-once recording of `self.first_prices[pair]` guarded by
`self.first_update[pair]` (engine.py lines 180-183). -/
def MultiBroker.recordFirst (b : MultiBroker) : Pair → ℚ → MultiBroker
  | .t1f, v => if b.fu1f then b else { b with fp1f := some v, fu1f := true }
  | .t2f, v => if b.fu2f then b else { b with fp2f := some v, fu2f := true }
  | .t12, v => if b.fu12 then b else { b with fp12 := some v, fu12 := true }

/-- `MultiBroker.calculate_portfolio_value` (engine.py lines 189-205):
fiat balance, plus token_1 at its direct price when known, plus token_2 at
its direct price when known, else triangulated through token_1/token_2 and
token_1/fiat when both are known, else nothing. -/
def MultiBroker.calculate_portfolio_value (b : MultiBroker) : ℚ :=
  let value := b.balances.fiat
  let value := match b.p1f with
    | some p => value + b.balances.token1 * p
    | none => value
  match b.p2f with
  | some p => value + b.balances.token2 * p
  | none =>
    match b.p1f, b.p12 with
    | some p1f, some p12 => value + b.balances.token2 / p12 * p1f
    | _, _ => value

/-- `MultiBroker.update_market` (engine.py lines 175-187): store the latest
close, record the first-seen price once, then append one equity sample. -/
def MultiBroker.update_market (b : MultiBroker) (pair : Pair) (close : ℚ) :
    MultiBroker :=
  let b := b.setPrice pair close
  let b := b.recordFirst pair close
  { b with equity_history := b.equity_history ++ [b.calculate_portfolio_value] }

/-- `MultiBroker.execute` (engine.py lines 207-263): resolve base/quote,
skip silently when no price is known, otherwise apply the buy or sell with
fee deduction when affordable, updating turnover, fees and trade count. -/
def MultiBroker.execute (b : MultiBroker) (order : Order) : MultiBroker :=
  let base := order.pair.base
  let quote := order.pair.quote
  let qty := order.qty
  match b.price order.pair with
  | none => b
  | some price =>
    match order.side with
    | .buy =>
      let base_cost := qty * price
      let fee_amount := base_cost * b.fee
      let total_cost := base_cost + fee_amount
      if b.balances.get quote ≥ total_cost then
        { b with
          balances := (b.balances.sub quote total_cost).add base qty
          turnover := b.turnover + total_cost
          total_fees_paid := b.total_fees_paid + fee_amount
          trade_count := b.trade_count + 1 }
      else b
    | .sell =>
      if b.balances.get base ≥ qty then
        let base_proceeds := qty * price
        let fee_amount := base_proceeds * b.fee
        let net_proceeds := base_proceeds - fee_amount
        { b with
          balances := (b.balances.add quote net_proceeds).sub base qty
          turnover := b.turnover + base_proceeds
          total_fees_paid := b.total_fees_paid + fee_amount
          trade_count := b.trade_count + 1 }
      else b

/-- One market observation: a pair and its close price. Timestamps are
abstracted away: the event loop below receives the stream already grouped
into Tick Groups, in timestamp order, as `run_multi_backtest` produces by
sorting on `timestamp` and grouping. -/
structure Tick : Type where
  pair : Pair
  close : ℚ
deriving DecidableEq

/-- The strategy callback `on_data(market_data, balances)`: it sees the
current Tick Group, the active fee rate, and the balances, and returns at
most one order (engine.py lines 77-81). -/
abbrev Strategy : Type := List Tick → ℚ → Balances → Option Order

/-- A fresh `MultiBroker` (its `__init__`) with the given balances and fee,
before the equity history is seeded by `run_multi_backtest`. -/
def initBroker (init : Balances) (fee : ℚ) : MultiBroker :=
  { balances := init
    p1f := none, p2f := none, p12 := none
    fp1f := none, fp2f := none, fp12 := none
    fu1f := false, fu2f := false, fu12 := false
    equity_history := []
    turnover := 0
    trade_count := 0
    total_fees_paid := 0
    fee := fee }

/-- First close price seen for a pair in a tick stream; mirrors
`first_prices[pair] = df.iloc[0]['close']` over the merged, time-sorted
stream (engine.py lines 39-42). -/
def firstClose : List Tick → Pair → Option ℚ
  | [], _ => none
  | t :: ts, p => if t.pair = p then some t.close else firstClose ts p

/-- The seed equity value (engine.py lines 44-49): initial fiat, plus each
token's initial holdings at that pair's first price, counted only when the
pair has a first price and the holding is strictly positive. -/
def initialPortfolioValue (init : Balances) (fp : Pair → Option ℚ) : ℚ :=
  let v := init.fiat
  let v := match fp .t1f with
    | some p => if init.token1 > 0 then v + init.token1 * p else v
    | none => v
  match fp .t2f with
  | some p => if init.token2 > 0 then v + init.token2 * p else v
  | none => v

/-- One iteration of the event loop (engine.py lines 65-81): update the
market for every tick of the group (each update appends an equity sample),
then ask the strategy and execute its action, if any. -/
def processGroup (strat : Strategy) (b : MultiBroker) (group : List Tick) :
    MultiBroker :=
  let b := group.foldl (fun acc t => acc.update_market t.pair t.close) b
  match strat group b.fee b.balances with
  | none => b
  | some order => b.execute order

/-- The core of `run_multi_backtest` (engine.py lines 39-81): seed the
equity history from initial balances and first prices, then fold the
event loop over the tick groups. Returns the final broker state. -/
def run_multi_backtest (strat : Strategy) (init : Balances) (fee : ℚ)
    (groups : List (List Tick)) : MultiBroker :=
  let seed := initialPortfolioValue init (firstClose groups.flatten)
  let b := { initBroker init fee with equity_history := [seed] }
  groups.foldl (processGroup strat) b

/-- The HODL baseline (engine.py lines 102-107): initial fiat, plus each
token's initial holdings at the run's final direct price, counted only when
that price is known and the holding is strictly positive. No triangulation. -/
def hodl_value (init : Balances) (b : MultiBroker) : ℚ :=
  let v := init.fiat
  let v := match b.p1f with
    | some p => if init.token1 > 0 then v + init.token1 * p else v
    | none => v
  match b.p2f with
  | some p => if init.token2 > 0 then v + init.token2 * p else v
  | none => v

/-- `np.maximum.accumulate` continued from a running maximum `m`. -/
def cummaxFrom (m : ℚ) : List ℚ → List ℚ
  | [] => []
  | x :: xs => max m x :: cummaxFrom (max m x) xs

/-- `np.maximum.accumulate(equity)`. -/
def cummax : List ℚ → List ℚ
  | [] => []
  | x :: xs => x :: cummaxFrom x xs

/-- `dd = (equity - cummax) / cummax` (engine.py line 15). -/
def drawdowns (equity : List ℚ) : List ℚ :=
  List.zipWith (fun e c => (e - c) / c) equity (cummax equity)

/-- `max_drawdown` (engine.py lines 13-16): minimum of the drawdown series;
`none` models the error `np.min` raises on an empty array. -/
def max_drawdown (equity : List ℚ) : Option ℚ :=
  (drawdowns equity).min?

/-- The third asset of a pair: the one that is neither base nor quote. -/
def Pair.other : Pair → Asset
  | .t1f => .token2
  | .t2f => .token1
  | .t12 => .fiat

/-- A broker holding 10000 fiat with the token_1/fiat price at 100 and the
default 2-basis-point fee. -/
def buyBroker : MultiBroker :=
  { initBroker ⟨10000, 0, 0⟩ (1/5000) with p1f := some 100 }

/-- A broker holding one token_1 with the token_1/fiat price at 110 and the
default 2-basis-point fee. -/
def sellBroker : MultiBroker :=
  { initBroker ⟨0, 1, 0⟩ (1/5000) with p1f := some 110 }

/-- A broker with no price known for any pair. -/
def noPriceBroker : MultiBroker := initBroker ⟨10000, 0, 0⟩ (1/5000)

/-- A broker holding one token_1, a token_1/fiat price of 100, and a
non-negative fee rate of 2 (i.e. 200%, as the CLI permits via `--fee`). -/
def highFeeBroker : MultiBroker := { initBroker ⟨0, 1, 0⟩ 2 with p1f := some 100 }

/-- A strategy that never trades. -/
def idleStrategy : Strategy := fun _ _ _ => none

/-- One Tick Group carrying two ticks (token_1/fiat and token_2/fiat at one
timestamp). -/
def twoTickGroup : List (List Tick) := [[⟨.t1f, 100⟩, ⟨.t2f, 5⟩]]

/-- The spec's end-to-end strategy: buy 1 token_1 while holding none (so it
buys only on the first tick). -/
def buyOnceStrategy : Strategy :=
  fun _ _ bal => if bal.token1 < 1 then some ⟨.t1f, .buy, 1⟩ else none

/-- The spec's end-to-end scenario: two ticks on token_1/fiat at 100 then
110, one tick per timestamp, initial fiat 10000, 2-bp fee. -/
def e2eRun : MultiBroker :=
  run_multi_backtest buyOnceStrategy ⟨10000, 0, 0⟩ (1/5000)
    [[⟨.t1f, 100⟩], [⟨.t1f, 110⟩]]

/-- Initial balances holding only one token_2. -/
def hodlInit : Balances := ⟨0, 0, 1⟩

/-- A run whose final PriceBook knows token_1/fiat = 100 and
token_1/token_2 = 2 but no direct token_2/fiat price. -/
def hodlRun : MultiBroker :=
  run_multi_backtest idleStrategy hodlInit (1/5000) [[⟨.t1f, 100⟩, ⟨.t12, 2⟩]]

/-- A broker whose book prices all three pairs. -/
def allPricedBroker : MultiBroker :=
  { initBroker ⟨0, 0, 0⟩ (1/5000) with
    p1f := some 100, p2f := some 5, p12 := some 20 }

/-- Drawdown series continued from a running maximum `m`: the fused form of
`(equity - cummax) / cummax`, used to reason about `drawdowns` by
induction. -/
def ddFrom (m : ℚ) : List ℚ → List ℚ
  | [] => []
  | x :: xs => (x - max m x) / max m x :: ddFrom (max m x) xs

theorem Pair.base_ne_quote (p : Pair) : p.base ≠ p.quote := by
  cases p <;> simp [Pair.base, Pair.quote]

/-- C2: for every buy order on a pair with a known price, with
`cost = qty * price`, `fee = cost * feeRate`, `total = cost + fee`,
`execute` applies the buy iff `balances[quote] ≥ total`, and then the quote
balance drops by `total`, the base balance rises by `qty`, the third asset
is untouched, turnover rises by `total`, fees by `fee`, and the trade count
by one; otherwise it is a no-op. -/
theorem execute_buy_spec (b : MultiBroker) (o : Order) (p : ℚ)
    (hpr : b.price o.pair = some p) (hside : o.side = .buy) :
    (b.balances.get o.pair.quote ≥ o.qty * p + o.qty * p * b.fee →
      (b.execute o).balances.get o.pair.quote
          = b.balances.get o.pair.quote - (o.qty * p + o.qty * p * b.fee) ∧
      (b.execute o).balances.get o.pair.base = b.balances.get o.pair.base + o.qty ∧
      (b.execute o).balances.get o.pair.other = b.balances.get o.pair.other ∧
      (b.execute o).turnover = b.turnover + (o.qty * p + o.qty * p * b.fee) ∧
      (b.execute o).total_fees_paid = b.total_fees_paid + o.qty * p * b.fee ∧
      (b.execute o).trade_count = b.trade_count + 1) ∧
    (¬ b.balances.get o.pair.quote ≥ o.qty * p + o.qty * p * b.fee →
      b.execute o = b) := by
  obtain ⟨pair, side, qty⟩ := o
  simp only at hside
  subst hside
  simp only [MultiBroker.price] at hpr
  cases pair <;>
    simp_all [MultiBroker.execute, MultiBroker.price, Pair.base, Pair.quote, Pair.other,
      Balances.add, Balances.sub, Balances.get, Balances.set]

/-- Witness for C2 at the spec's concrete numbers: from fiat=10000,
price(token_1/fiat)=100, feeRate=0.0002, a buy of qty=1 leaves fiat=9899.98,
token_1=1, turnover=100.02, feesPaid=0.02, tradeCount=1. -/
theorem execute_buy_spec_witness :
    (buyBroker.execute ⟨.t1f, .buy, 1⟩).balances.get .fiat = 9899.98 ∧
    (buyBroker.execute ⟨.t1f, .buy, 1⟩).balances.get .token1 = 1 ∧
    (buyBroker.execute ⟨.t1f, .buy, 1⟩).balances.get .token2 = 0 ∧
    (buyBroker.execute ⟨.t1f, .buy, 1⟩).turnover = 100.02 ∧
    (buyBroker.execute ⟨.t1f, .buy, 1⟩).total_fees_paid = 0.02 ∧
    (buyBroker.execute ⟨.t1f, .buy, 1⟩).trade_count = 1 := by
  have h := (execute_buy_spec buyBroker ⟨.t1f, .buy, 1⟩ 100 rfl rfl).1
    (by norm_num [buyBroker, initBroker, Balances.get, Pair.quote])
  obtain ⟨h1, h2, h3, h4, h5, h6⟩ := h
  simp only [Pair.quote, Pair.base, Pair.other] at h1 h2 h3
  refine ⟨?_, ?_, ?_, ?_, ?_, ?_⟩
  · rw [h1]; norm_num [buyBroker, initBroker, Balances.get]
  · rw [h2]; norm_num [buyBroker, initBroker, Balances.get]
  · rw [h3]; norm_num [buyBroker, initBroker, Balances.get]
  · rw [h4]; norm_num [buyBroker, initBroker]
  · rw [h5]; norm_num [buyBroker, initBroker]
  · rw [h6]; norm_num [buyBroker, initBroker]

/-- C3: for every sell order on a pair with a known price, with
`proceeds = qty * price`, `fee = proceeds * feeRate`, `net = proceeds - fee`,
`execute` applies the sell iff `balances[base] ≥ qty`, and then the quote
balance rises by `net`, the base balance drops by `qty`, the third asset is
untouched, turnover rises by the gross `proceeds` (fee excluded — asymmetric
to buys), fees by `fee`, and the trade count by one; otherwise no-op. -/
theorem execute_sell_spec (b : MultiBroker) (o : Order) (p : ℚ)
    (hpr : b.price o.pair = some p) (hside : o.side = .sell) :
    (b.balances.get o.pair.base ≥ o.qty →
      (b.execute o).balances.get o.pair.quote
          = b.balances.get o.pair.quote + (o.qty * p - o.qty * p * b.fee) ∧
      (b.execute o).balances.get o.pair.base = b.balances.get o.pair.base - o.qty ∧
      (b.execute o).balances.get o.pair.other = b.balances.get o.pair.other ∧
      (b.execute o).turnover = b.turnover + o.qty * p ∧
      (b.execute o).total_fees_paid = b.total_fees_paid + o.qty * p * b.fee ∧
      (b.execute o).trade_count = b.trade_count + 1) ∧
    (¬ b.balances.get o.pair.base ≥ o.qty → b.execute o = b) := by
  obtain ⟨pair, side, qty⟩ := o
  simp only at hside
  subst hside
  simp only [MultiBroker.price] at hpr
  cases pair <;>
    simp_all [MultiBroker.execute, MultiBroker.price, Pair.base, Pair.quote, Pair.other,
      Balances.add, Balances.sub, Balances.get, Balances.set]

/-- Witness for C3 at the spec's sell-symmetry numbers: from token_1=1,
price=110, feeRate=0.0002, a sell of qty=1 yields net 109.978 into fiat,
token_1=0, turnover=110 gross, feesPaid=0.022, tradeCount=1. -/
theorem execute_sell_spec_witness :
    (sellBroker.execute ⟨.t1f, .sell, 1⟩).balances.get .fiat = 109.978 ∧
    (sellBroker.execute ⟨.t1f, .sell, 1⟩).balances.get .token1 = 0 ∧
    (sellBroker.execute ⟨.t1f, .sell, 1⟩).balances.get .token2 = 0 ∧
    (sellBroker.execute ⟨.t1f, .sell, 1⟩).turnover = 110 ∧
    (sellBroker.execute ⟨.t1f, .sell, 1⟩).total_fees_paid = 0.022 ∧
    (sellBroker.execute ⟨.t1f, .sell, 1⟩).trade_count = 1 := by
  have h := (execute_sell_spec sellBroker ⟨.t1f, .sell, 1⟩ 110 rfl rfl).1
    (by norm_num [sellBroker, initBroker, Balances.get, Pair.base])
  obtain ⟨h1, h2, h3, h4, h5, h6⟩ := h
  simp only [Pair.quote, Pair.base, Pair.other] at h1 h2 h3
  refine ⟨?_, ?_, ?_, ?_, ?_, ?_⟩
  · rw [h1]; norm_num [sellBroker, initBroker, Balances.get]
  · rw [h2]; norm_num [sellBroker, initBroker, Balances.get]
  · rw [h3]; norm_num [sellBroker, initBroker, Balances.get]
  · rw [h4]; norm_num [sellBroker, initBroker]
  · rw [h5]; norm_num [sellBroker, initBroker]
  · rw [h6]; norm_num [sellBroker, initBroker]

/-- C4: a rejected order — no known price for its pair, or an unaffordable
buy, or a sell of more than the base holding — leaves the broker state
(every balance and every counter) exactly as it was. -/
theorem execute_reject_noop (b : MultiBroker) (o : Order)
    (h : b.price o.pair = none ∨
      ∃ p, b.price o.pair = some p ∧
        ((o.side = .buy ∧
            b.balances.get o.pair.quote < o.qty * p + o.qty * p * b.fee) ∨
         (o.side = .sell ∧ b.balances.get o.pair.base < o.qty))) :
    b.execute o = b := by
  obtain ⟨pair, side, qty⟩ := o
  rcases h with h | ⟨p, hpr, h | h⟩
  · simp only [MultiBroker.price] at h
    cases pair <;> simp_all [MultiBroker.execute, MultiBroker.price]
  · obtain ⟨hside, hlt⟩ := h
    simp only at hside
    subst hside
    simp only [MultiBroker.price] at hpr
    rw [← not_le] at hlt
    cases pair <;>
      simp_all [MultiBroker.execute, MultiBroker.price, Pair.base, Pair.quote, ge_iff_le]
  · obtain ⟨hside, hlt⟩ := h
    simp only at hside
    subst hside
    simp only [MultiBroker.price] at hpr
    rw [← not_le] at hlt
    cases pair <;>
      simp_all [MultiBroker.execute, MultiBroker.price, Pair.base, Pair.quote, ge_iff_le]

/-- Witness for C4: a buy on token_1/fiat before any tick leaves the broker
untouched. -/
theorem execute_reject_noop_witness :
    noPriceBroker.execute ⟨.t1f, .buy, 1⟩ = noPriceBroker :=
  execute_reject_noop noPriceBroker ⟨.t1f, .buy, 1⟩ (Or.inl rfl)

/-- C5: the portfolio value is the fiat balance, plus token_1 at its direct
price when known, plus the token_2 contribution chosen by priority: direct
price when known (triangulation ignored), else triangulated through
token_1/token_2 and token_1/fiat when both are known, else zero. -/
theorem calculate_portfolio_value_spec (b : MultiBroker) :
    b.calculate_portfolio_value =
      b.balances.fiat
      + (match b.p1f with
         | some p1 => b.balances.token1 * p1
         | none => 0)
      + (match b.p2f, b.p1f, b.p12 with
         | some p2, _, _ => b.balances.token2 * p2
         | none, some p1, some p12 => b.balances.token2 / p12 * p1
         | none, _, _ => 0) := by
  rcases h1 : b.p1f with _ | p1 <;> rcases h2 : b.p2f with _ | p2 <;>
    rcases h12 : b.p12 with _ | p12 <;>
      simp [MultiBroker.calculate_portfolio_value, h1, h2, h12]

/-- C10: an order of quantity exactly 0 on a priced pair, from non-negative
balances, counts as executed: the trade count rises by one while balances,
turnover and fees are all unchanged. -/
theorem execute_zero_qty (b : MultiBroker) (o : Order) (p : ℚ)
    (hpr : b.price o.pair = some p) (hq : o.qty = 0)
    (hb : ∀ a, 0 ≤ b.balances.get a) :
    (b.execute o).balances = b.balances ∧
    (b.execute o).turnover = b.turnover ∧
    (b.execute o).total_fees_paid = b.total_fees_paid ∧
    (b.execute o).trade_count = b.trade_count + 1 := by
  obtain ⟨pair, side, qty⟩ := o
  simp only at hq
  subst hq
  simp only [MultiBroker.price] at hpr
  have hf := hb .fiat
  have ht1 := hb .token1
  have ht2 := hb .token2
  simp only [Balances.get] at hf ht1 ht2
  cases side <;> cases pair <;>
    simp_all [MultiBroker.execute, MultiBroker.price, Pair.base, Pair.quote,
      Balances.add, Balances.sub, Balances.get, Balances.set]

/-- Witness for C10: a zero-quantity buy on the priced broker only bumps the
trade count. -/
theorem execute_zero_qty_witness :
    (buyBroker.execute ⟨.t1f, .buy, 0⟩).balances = buyBroker.balances ∧
    (buyBroker.execute ⟨.t1f, .buy, 0⟩).turnover = buyBroker.turnover ∧
    (buyBroker.execute ⟨.t1f, .buy, 0⟩).total_fees_paid
        = buyBroker.total_fees_paid ∧
    (buyBroker.execute ⟨.t1f, .buy, 0⟩).trade_count
        = buyBroker.trade_count + 1 :=
  execute_zero_qty buyBroker ⟨.t1f, .buy, 0⟩ 100 rfl rfl
    (fun a => by cases a <;> norm_num [buyBroker, initBroker, Balances.get])

/-- `execute` only ever touches balances, turnover, fees and the trade
count: prices, first prices, equity history and the fee rate survive. -/
theorem execute_eq_or (b : MultiBroker) (o : Order) :
    ∃ bal t f n, b.execute o =
      { b with balances := bal, turnover := t, total_fees_paid := f,
               trade_count := n } := by
  obtain ⟨pair, side, qty⟩ := o
  simp only [MultiBroker.execute]
  rcases hpr : b.price pair with _ | p
  · exact ⟨b.balances, b.turnover, b.total_fees_paid, b.trade_count, rfl⟩
  · cases side <;> simp only <;> split
    · exact ⟨_, _, _, _, rfl⟩
    · exact ⟨b.balances, b.turnover, b.total_fees_paid, b.trade_count, rfl⟩
    · exact ⟨_, _, _, _, rfl⟩
    · exact ⟨b.balances, b.turnover, b.total_fees_paid, b.trade_count, rfl⟩

theorem execute_price (b : MultiBroker) (o : Order) (pr : Pair) :
    (b.execute o).price pr = b.price pr := by
  obtain ⟨bal, t, f, n, h⟩ := execute_eq_or b o
  rw [h]; cases pr <;> rfl

theorem execute_fee (b : MultiBroker) (o : Order) : (b.execute o).fee = b.fee := by
  obtain ⟨bal, t, f, n, h⟩ := execute_eq_or b o
  rw [h]

/-- One execution step keeps all balances non-negative, provided the book's
prices are non-negative, the order quantity is non-negative, and the fee
rate lies in [0, 1]. -/
theorem execute_nonneg_step (b : MultiBroker) (o : Order)
    (hb : ∀ a, 0 ≤ b.balances.get a)
    (hp : ∀ pr q, b.price pr = some q → 0 ≤ q)
    (hf0 : 0 ≤ b.fee) (hf1 : b.fee ≤ 1) (hq : 0 ≤ o.qty) :
    ∀ a, 0 ≤ (b.execute o).balances.get a := by
  obtain ⟨pair, side, qty⟩ := o
  simp only at hq
  have hf := hb .fiat
  have ht1 := hb .token1
  have ht2 := hb .token2
  simp only [Balances.get] at hf ht1 ht2
  rcases hpr : b.price pair with _ | p
  · simpa [MultiBroker.execute, hpr] using hb
  · have hp' : 0 ≤ p := hp pair p hpr
    simp only [MultiBroker.price] at hpr
    intro a
    cases side <;> cases pair <;> cases a <;>
      simp_all [MultiBroker.execute, MultiBroker.price, Pair.base, Pair.quote,
        Balances.add, Balances.sub, Balances.get, Balances.set, ge_iff_le] <;>
      split <;>
      simp_all <;>
      first
        | assumption
        | nlinarith [mul_nonneg hq hp', mul_nonneg (mul_nonneg hq hp') hf0]

/-- Folding `execute` over any order list keeps all balances non-negative,
under the same side conditions, order by order. -/
theorem foldl_execute_nonneg (l : List Order) (b : MultiBroker)
    (hb : ∀ a, 0 ≤ b.balances.get a)
    (hp : ∀ pr q, b.price pr = some q → 0 ≤ q)
    (hf0 : 0 ≤ b.fee) (hf1 : b.fee ≤ 1)
    (hq : ∀ o ∈ l, 0 ≤ o.qty) :
    ∀ a, 0 ≤ (List.foldl MultiBroker.execute b l).balances.get a := by
  induction l generalizing b with
  | nil => simpa using hb
  | cons o l ih =>
    simp only [List.foldl_cons]
    refine ih (b.execute o) ?_ ?_ ?_ ?_ ?_
    · exact execute_nonneg_step b o hb hp hf0 hf1 (hq o (by simp))
    · intro pr q h
      rw [execute_price] at h
      exact hp pr q h
    · rw [execute_fee]; exact hf0
    · rw [execute_fee]; exact hf1
    · intro o' h'
      exact hq o' (by simp [h'])

/-- C1 counterexample: all of the claim's hypotheses hold — non-negative
balances, non-negative prices, a non-negative fee rate, and an order of
positive quantity — yet one `execute` drives the fiat balance to −100:
the sell's net proceeds `qty*price*(1 - feeRate)` are negative when the
fee rate exceeds 1, and the code only guards the base balance. -/
theorem balance_nonneg_counterexample :
    (∀ a, 0 ≤ highFeeBroker.balances.get a) ∧
    (∀ pr q, highFeeBroker.price pr = some q → 0 ≤ q) ∧
    0 ≤ highFeeBroker.fee ∧
    (0 : ℚ) < 1 ∧
    (highFeeBroker.execute ⟨.t1f, .sell, 1⟩).balances.get .fiat < 0 := by
  refine ⟨?_, ?_, ?_, by norm_num, ?_⟩
  · intro a; cases a <;> norm_num [highFeeBroker, initBroker, Balances.get]
  · intro pr q h
    cases pr <;> simp_all [highFeeBroker, initBroker, MultiBroker.price]
    exact h ▸ (by norm_num)
  · norm_num [highFeeBroker, initBroker]
  · norm_num [highFeeBroker, initBroker, MultiBroker.execute, MultiBroker.price,
      Pair.base, Pair.quote, Balances.add, Balances.sub, Balances.get, Balances.set]

/-- C1 amended: for every run starting from non-negative balances, with
non-negative prices in the book, a fee rate in [0, 1] (the claim's bare
non-negativity is not enough: a fee rate above 1 makes a sell's net
proceeds negative), and orders of positive quantity, every asset balance
stays non-negative at every point of the order sequence. -/
theorem balance_nonneg_invariant (b : MultiBroker) (orders : List Order)
    (hb : ∀ a, 0 ≤ b.balances.get a)
    (hp : ∀ pr q, b.price pr = some q → 0 ≤ q)
    (hf0 : 0 ≤ b.fee) (hf1 : b.fee ≤ 1)
    (hq : ∀ o ∈ orders, 0 < o.qty) :
    ∀ l₁ l₂, orders = l₁ ++ l₂ →
      ∀ a, 0 ≤ (List.foldl MultiBroker.execute b l₁).balances.get a := by
  intro l₁ l₂ heq
  refine foldl_execute_nonneg l₁ b hb hp hf0 hf1 ?_
  intro o h
  exact le_of_lt (hq o (heq ▸ List.mem_append_left l₂ h))

/-- Witness for C1 (amended): a buy then an over-large sell from 10000 fiat
at the 2-bp fee leave every balance non-negative after every step. -/
theorem balance_nonneg_invariant_witness :
    0 ≤ (List.foldl MultiBroker.execute buyBroker
      [⟨.t1f, .buy, 1⟩, ⟨.t1f, .sell, 5⟩]).balances.get .fiat ∧
    0 ≤ (List.foldl MultiBroker.execute buyBroker
      [⟨.t1f, .buy, 1⟩, ⟨.t1f, .sell, 5⟩]).balances.get .token1 ∧
    0 ≤ (List.foldl MultiBroker.execute buyBroker
      [⟨.t1f, .buy, 1⟩, ⟨.t1f, .sell, 5⟩]).balances.get .token2 := by
  have h := balance_nonneg_invariant buyBroker [⟨.t1f, .buy, 1⟩, ⟨.t1f, .sell, 5⟩]
    (fun a => by cases a <;> norm_num [buyBroker, initBroker, Balances.get])
    (fun pr q hpq => by
      cases pr <;> simp_all [buyBroker, initBroker, MultiBroker.price]
      exact hpq ▸ (by norm_num))
    (by norm_num [buyBroker, initBroker])
    (by norm_num [buyBroker, initBroker])
    (fun o ho => by fin_cases ho <;> norm_num)
    [⟨.t1f, .buy, 1⟩, ⟨.t1f, .sell, 5⟩] [] rfl
  exact ⟨h .fiat, h .token1, h .token2⟩

theorem recordFirst_equity (b : MultiBroker) (pair : Pair) (v : ℚ) :
    (b.recordFirst pair v).equity_history = b.equity_history := by
  cases pair <;> simp only [MultiBroker.recordFirst] <;> split <;> rfl

theorem update_market_equity_length (b : MultiBroker) (pair : Pair) (close : ℚ) :
    (b.update_market pair close).equity_history.length
      = b.equity_history.length + 1 := by
  simp only [MultiBroker.update_market, List.length_append, List.length_cons,
    List.length_nil, recordFirst_equity]
  cases pair <;> rfl

theorem execute_equity (b : MultiBroker) (o : Order) :
    (b.execute o).equity_history = b.equity_history := by
  obtain ⟨bal, t, f, n, h⟩ := execute_eq_or b o
  rw [h]

theorem foldl_update_equity_length (g : List Tick) (b : MultiBroker) :
    (g.foldl (fun acc t => acc.update_market t.pair t.close) b).equity_history.length
      = b.equity_history.length + g.length := by
  induction g generalizing b with
  | nil => rfl
  | cons t g ih =>
    simp only [List.foldl_cons, List.length_cons, ih, update_market_equity_length]
    omega

theorem processGroup_equity_length (strat : Strategy) (b : MultiBroker)
    (g : List Tick) :
    (processGroup strat b g).equity_history.length
      = b.equity_history.length + g.length := by
  simp only [processGroup]
  split <;> simp [execute_equity, foldl_update_equity_length]

theorem foldl_processGroup_equity_length (strat : Strategy)
    (groups : List (List Tick)) (b : MultiBroker) :
    (groups.foldl (processGroup strat) b).equity_history.length
      = b.equity_history.length + (groups.map List.length).sum := by
  induction groups generalizing b with
  | nil => rfl
  | cons g groups ih =>
    simp only [List.foldl_cons, List.map_cons, List.sum_cons, ih,
      processGroup_equity_length]
    omega

/-- C6 counterexample: a run over a single Tick Group of two ticks yields an
equity sequence of length 3 (one seed plus one sample per tick), not the
claimed `n + 1 = 2`: `update_market` appends a sample per tick, inside the
group's update loop, not once per group after all updates. -/
theorem equity_per_group_counterexample :
    (run_multi_backtest idleStrategy ⟨10000, 0, 0⟩ (1/5000)
        twoTickGroup).equity_history.length ≠ twoTickGroup.length + 1 := by
  norm_num [run_multi_backtest, twoTickGroup, idleStrategy, processGroup,
    MultiBroker.update_market, MultiBroker.setPrice, MultiBroker.recordFirst,
    initBroker, firstClose, initialPortfolioValue]

/-- C6 amended: the Simulator appends exactly one EquitySample per tick
(inside the group's price-update loop, after that tick's individual price
update), so a run yields an equity sequence of length 1 + total tick count;
this equals `n + 1` for `n` Tick Groups only when every group has exactly
one tick. -/
theorem equity_sample_per_tick (strat : Strategy) (init : Balances) (fee : ℚ)
    (groups : List (List Tick)) :
    (run_multi_backtest strat init fee groups).equity_history.length
      = 1 + (groups.map List.length).sum := by
  unfold run_multi_backtest
  rw [foldl_processGroup_equity_length]
  simp [Nat.add_comm]

theorem e2eRun_eval :
    e2eRun.equity_history = [10000, 10000, 10009.98] ∧
    e2eRun.turnover = 100.02 ∧
    e2eRun.total_fees_paid = 0.02 ∧
    e2eRun.trade_count = 1 := by
  refine ⟨?_, ?_, ?_, ?_⟩ <;>
    simp [e2eRun, run_multi_backtest, buyOnceStrategy, processGroup,
      MultiBroker.update_market, MultiBroker.setPrice, MultiBroker.recordFirst,
      MultiBroker.calculate_portfolio_value, MultiBroker.execute,
      MultiBroker.price, Pair.base, Pair.quote, Balances.add, Balances.sub,
      Balances.get, Balances.set, initBroker, firstClose, initialPortfolioValue,
      List.foldl] <;>
    norm_num

/-- C7 counterexample: the scenario's equity sequence is not
`[10000, 9999.98, 10009.98]` — the code appends the tick-1 sample before
the strategy's buy, so the second sample is 10000, not 9999.98. -/
theorem e2e_scenario_counterexample :
    e2eRun.equity_history ≠ [10000, 9999.98, 10009.98] := by
  rw [e2eRun_eval.1]
  intro h
  have h2 := List.head_eq_of_cons_eq (List.tail_eq_of_cons_eq h)
  norm_num at h2

/-- C7 amended: the run produces the equity sequence
`[10000, 10000, 10009.98]` — seed from starting balances at the tick-1
price, then the tick-1 sample computed before the buy (still 10000), then
the tick-2 sample after the buy at the tick-2 price — with turnover 100.02,
feesPaid 0.02 and tradeCount 1 as claimed. -/
theorem e2e_scenario_amended :
    e2eRun.equity_history = [10000, 10000, 10009.98] ∧
    e2eRun.turnover = 100.02 ∧
    e2eRun.total_fees_paid = 0.02 ∧
    e2eRun.trade_count = 1 :=
  e2eRun_eval

/-- C8 counterexample: with initial holdings of one token_2 and final
prices token_1/fiat = 100, token_1/token_2 = 2, token_2/fiat unknown, the
PortfolioValuer triangulates the holdings to 50 fiat, but the HODL
computation (engine.py lines 102-107) uses only direct prices and yields 0:
the HODL baseline does not share the valuer's triangulation fallback. -/
theorem hodl_triangulation_counterexample :
    hodl_value hodlInit hodlRun ≠
      MultiBroker.calculate_portfolio_value { hodlRun with balances := hodlInit } := by
  simp [hodlRun, hodlInit, hodl_value, MultiBroker.calculate_portfolio_value,
    run_multi_backtest, idleStrategy, processGroup, MultiBroker.update_market,
    MultiBroker.setPrice, MultiBroker.recordFirst, initBroker, firstClose,
    initialPortfolioValue, List.foldl]

/-- C8 amended: the HODL baseline agrees with the PortfolioValuer applied
to the initial balances at the run's final prices whenever no triangulation
would occur: when the direct token_2/fiat price is known, or the initial
token_2 holding is zero, or one of the two triangulation prices is missing.
(It differs exactly when the valuer would triangulate a nonzero token_2
holding.) -/
theorem hodl_value_spec (init : Balances) (b : MultiBroker)
    (h1 : 0 ≤ init.token1) (h2 : 0 ≤ init.token2)
    (h : b.p2f ≠ none ∨ init.token2 = 0 ∨ b.p1f = none ∨ b.p12 = none) :
    hodl_value init b
      = MultiBroker.calculate_portfolio_value { b with balances := init } := by
  have ht1 : ∀ p v : ℚ, (if init.token1 > 0 then v + init.token1 * p else v)
      = v + init.token1 * p := by
    intro p v
    split_ifs with hgt
    · rfl
    · have hz : init.token1 = 0 := le_antisymm (not_lt.mp hgt) h1
      rw [hz]; ring
  have ht2 : ∀ p v : ℚ, (if init.token2 > 0 then v + init.token2 * p else v)
      = v + init.token2 * p := by
    intro p v
    split_ifs with hgt
    · rfl
    · have hz : init.token2 = 0 := le_antisymm (not_lt.mp hgt) h2
      rw [hz]; ring
  rcases hp1 : b.p1f with _ | p1 <;> rcases hp2 : b.p2f with _ | p2 <;>
    rcases hp12 : b.p12 with _ | p12 <;>
    simp only [hodl_value, MultiBroker.calculate_portfolio_value, hp1, hp2, hp12]
  all_goals try rw [ht1]
  all_goals try rw [ht2]
  rcases h with h | h | h | h
  · exact absurd hp2 h
  · rw [h]; ring
  · simp [hp1] at h
  · simp [hp12] at h

/-- Witness for C8 (amended): with a direct token_2/fiat price known, HODL
and the PortfolioValuer agree on the initial balances (10, 1, 2). -/
theorem hodl_value_spec_witness :
    hodl_value ⟨10, 1, 2⟩ allPricedBroker
      = MultiBroker.calculate_portfolio_value
          { allPricedBroker with balances := ⟨10, 1, 2⟩ } :=
  hodl_value_spec ⟨10, 1, 2⟩ allPricedBroker (by norm_num) (by norm_num)
    (Or.inl (by simp [allPricedBroker, initBroker]))

theorem zipWith_cummaxFrom (m : ℚ) (xs : List ℚ) :
    List.zipWith (fun e c => (e - c) / c) xs (cummaxFrom m xs) = ddFrom m xs := by
  induction xs generalizing m with
  | nil => rfl
  | cons x xs ih => simp [cummaxFrom, ddFrom, ih]

theorem drawdowns_cons (x : ℚ) (xs : List ℚ) :
    drawdowns (x :: xs) = 0 :: ddFrom x xs := by
  simp [drawdowns, cummax, zipWith_cummaxFrom]

theorem ddFrom_bounds (m : ℚ) (hm : 0 < m) (xs : List ℚ)
    (hxs : ∀ x ∈ xs, 0 < x) : ∀ y ∈ ddFrom m xs, -1 < y ∧ y ≤ 0 := by
  induction xs generalizing m with
  | nil => simp [ddFrom]
  | cons x xs ih =>
    have hx : 0 < x := hxs x (by simp)
    have hM : 0 < max m x := lt_max_iff.mpr (Or.inl hm)
    intro y hy
    simp only [ddFrom, List.mem_cons] at hy
    rcases hy with rfl | hy
    · constructor
      · rw [lt_div_iff₀ hM]
        nlinarith [hx]
      · apply div_nonpos_of_nonpos_of_nonneg
        · linarith [le_max_right m x]
        · exact hM.le
    · exact ih (max m x) hM (fun z hz => hxs z (by simp [hz])) y hy

theorem ddFrom_zero_iff (m : ℚ) (hm : 0 < m) (xs : List ℚ)
    (hxs : ∀ x ∈ xs, 0 < x) :
    (∀ y ∈ ddFrom m xs, y = 0) ↔ List.Chain (· ≤ ·) m xs := by
  induction xs generalizing m with
  | nil => simp [ddFrom]
  | cons x xs ih =>
    have hx : 0 < x := hxs x (by simp)
    have hM : 0 < max m x := lt_max_iff.mpr (Or.inl hm)
    have htail : ∀ z ∈ xs, 0 < z := fun z hz => hxs z (by simp [hz])
    simp only [ddFrom, List.mem_cons, List.chain_cons, forall_eq_or_imp]
    constructor
    · rintro ⟨h0, hrest⟩
      have hsub : x - max m x = 0 := by
        rcases div_eq_zero_iff.mp h0 with h | h
        · exact h
        · exact absurd h hM.ne'
      have hMx : max m x = x := by linarith
      have hmx : m ≤ x := by
        rcases le_total m x with hle | hle
        · exact hle
        · rw [max_eq_left hle] at hMx; exact hMx.le
      refine ⟨hmx, ?_⟩
      rw [hMx] at hrest
      exact (ih x hx htail).mp hrest
    · rintro ⟨hmx, hchain⟩
      have hMx : max m x = x := max_eq_right hmx
      refine ⟨by rw [hMx]; simp, ?_⟩
      rw [hMx]
      exact (ih x hx htail).mpr hchain

/-- C9: for every non-empty all-positive equity sequence, `max_drawdown`
yields some `m` that is the minimum of the drawdown series
`(equity - runningMax) / runningMax`, lies in (−1, 0], and is 0 exactly
when the equity sequence is non-decreasing. -/
theorem max_drawdown_spec (e : List ℚ) (hne : e ≠ [])
    (hpos : ∀ x ∈ e, 0 < x) :
    ∃ m, max_drawdown e = some m ∧
      m ∈ drawdowns e ∧ (∀ d ∈ drawdowns e, m ≤ d) ∧
      -1 < m ∧ m ≤ 0 ∧
      (m = 0 ↔ List.Chain' (· ≤ ·) e) := by
  cases e with
  | nil => exact absurd rfl hne
  | cons x xs =>
  have hx : 0 < x := hpos x (by simp)
  have htail : ∀ z ∈ xs, 0 < z := fun z hz => hpos z (by simp [hz])
  have hdd : drawdowns (x :: xs) = 0 :: ddFrom x xs := drawdowns_cons x xs
  rcases hmin : (drawdowns (x :: xs)).min? with _ | m
  · rw [List.min?_eq_none_iff, hdd] at hmin
    exact absurd hmin (by simp)
  refine ⟨m, hmin, ?_, ?_, ?_, ?_, ?_⟩
  · exact List.min?_mem (fun a b => min_choice a b) hmin
  · exact fun d hd =>
      (List.le_min?_iff (fun a b c => le_min_iff) hmin).mp (le_refl m) d hd
  · have hmem := List.min?_mem (fun a b => min_choice a b) hmin
    rw [hdd] at hmem
    rcases List.mem_cons.mp hmem with rfl | hm'
    · norm_num
    · exact (ddFrom_bounds x hx xs htail m hm').1
  · have hle := (List.le_min?_iff (fun a b c => le_min_iff) hmin).mp (le_refl m)
    exact hle 0 (by rw [hdd]; simp)
  · constructor
    · intro h0
      subst h0
      have hle := (List.le_min?_iff (fun a b c => le_min_iff) hmin).mp (le_refl 0)
      have hall : ∀ y ∈ ddFrom x xs, y = 0 := by
        intro y hy
        have h1 := (ddFrom_bounds x hx xs htail y hy).2
        have h2 := hle y (by rw [hdd]; simp [hy])
        linarith
      exact (ddFrom_zero_iff x hx xs htail).mp hall
    · intro hch
      have hall : ∀ y ∈ ddFrom x xs, y = 0 :=
        (ddFrom_zero_iff x hx xs htail).mpr hch
      have hmem := List.min?_mem (fun a b => min_choice a b) hmin
      rw [hdd] at hmem
      rcases List.mem_cons.mp hmem with rfl | hm'
      · rfl
      · exact hall m hm'

/-- Witness for C9 at the equity sequence [2, 1]: its maximum drawdown is
−1/2, the minimum of the drawdown series, inside (−1, 0], and nonzero since
the sequence decreases. -/
theorem max_drawdown_spec_witness :
    ∃ m, max_drawdown [(2 : ℚ), 1] = some m ∧
      m ∈ drawdowns [(2 : ℚ), 1] ∧ (∀ d ∈ drawdowns [(2 : ℚ), 1], m ≤ d) ∧
      -1 < m ∧ m ≤ 0 ∧
      (m = 0 ↔ List.Chain' (· ≤ ·) [(2 : ℚ), 1]) :=
  max_drawdown_spec [(2 : ℚ), 1] (by simp)
    (fun x hx => by fin_cases hx <;> norm_num)

end Trading
